import Mathlib

/-!
Verification of the SentencePlugin position codec
(`packages/lexical-playground/src/plugins/SentencePlugin/index.tsx`).

The document tree is shallowly embedded as an inductive type `Node`
(TextNode / ElementNode / LineBreakNode, the three node kinds the
plugin dispatches on).  The plugin's functions `$pointToPath`,
`findTargetNode` / `findTargetInTextNode` / `findTargetInElementNode`,
`$setPointFromPointPath` and `findFirstSentenceMatch` are translated
into Lean definitions below; JS numbers that may become negative are
modelled as `Int`.  Node identity is represented by the position of a
node inside its tree: a path of child indices from the block root.
-/

namespace SentencePlugin

/-- Document node: the three node kinds the plugin dispatches on
(`$isTextNode`, `$isElementNode`, `$isLineBreakNode`). -/
inductive Node where
  | text (content : String)
  | element (children : List Node) (inl : Bool)
  | linebreak
deriving Repr

/-- Embedding of the `$isElementNode` check. -/
def isElementNode : Node → Bool
  | .element _ _ => true
  | _ => false

/-- Embedding of `node.isInline()` (only ever called on element nodes). -/
def isInlineNode : Node → Bool
  | .element _ inl => inl
  | _ => false

/-- The separator condition used by `adjustTextOffsetForElementNode` in
`handleHighlight`: `$isElementNode(node) && index !== totalChildren - 1
&& !node.isInline()`.  The same condition governs where the external
`getTextContent` inserts `DOUBLE_LINE_BREAK` (the plugin's comment
cites `LexicalElementNode.ts`). -/
def sepCond (n : Node) (i tot : Nat) : Bool :=
  isElementNode n && (i != tot - 1) && !isInlineNode n

mutual

/-- Total size of the text content of a subtree: `getTextContentSize()`
for a TextNode, and the sum of the sizes of `getAllTextNodes()` for an
ElementNode, exactly what `setOffsetFromNode` in `$pointToPath` adds.
A LineBreakNode contributes nothing (it is neither a text nor an
element node, so `setOffsetFromNode` ignores it). -/
def textSize : Node → Nat
  | .text s => s.length
  | .element cs _ => textSizeList cs
  | .linebreak => 0

/-- Sum of `textSize` over a list of siblings. -/
def textSizeList : List Node → Nat
  | [] => 0
  | c :: rest => textSize c + textSizeList rest

end

mutual

/-- Modelled from the spec: the rendered flattening
(`getTextContent()` of the external Document Tree Model, spec section
4.3 "Rendered").  It concatenates children's rendered text, inserting
the fixed 2-character separator `"\n\n"` after a non-inline ElementNode
child that is not the last child; a LineBreakNode renders as `"\n"`. -/
def renderedText : Node → String
  | .text s => s
  | .element cs _ => renderedList cs 0 cs.length
  | .linebreak => "\n"

/-- Rendered flattening of a list of children, tracking the child index
`i` of `tot` children for the separator condition. -/
def renderedList : List Node → Nat → Nat → String
  | [], _, _ => ""
  | c :: rest, i, tot =>
      renderedText c ++ (if sepCond c i tot then "\n\n" else "") ++
        renderedList rest (i + 1) tot

end

mutual

/-- Modelled from the spec: the exact flattening (spec section 4.3
"Exact"): TextNode content concatenated with zero separators, a
LineBreakNode contributing the empty string. -/
def exactText : Node → String
  | .text s => s
  | .element cs _ => exactTextList cs
  | .linebreak => ""

/-- Exact flattening of a list of children. -/
def exactTextList : List Node → String
  | [] => ""
  | c :: rest => exactText c ++ exactTextList rest

end

mutual

/-- Whether a subtree contains any TextNode. -/
def hasText : Node → Bool
  | .text _ => true
  | .element cs _ => hasTextList cs
  | .linebreak => false

/-- Whether any node of a list of subtrees contains a TextNode. -/
def hasTextList : List Node → Bool
  | [] => false
  | c :: rest => hasText c || hasTextList rest

end

/-- Node at a path of child indices inside a subtree (path `[]` is the
subtree root).  This is how the embedding identifies a live node. -/
def nodeAt : Node → List Nat → Option Node
  | n, [] => some n
  | .element cs _, i :: rest =>
      match cs[i]? with
      | some c => nodeAt c rest
      | none => none
  | _, _ :: _ => none

/-- Exact-flattened size of everything that precedes the node at path
`p` in pre-order inside the subtree: at each level, the `textSize` of
the children before the path's index. -/
def prefixSize : Node → List Nat → Nat
  | _, [] => 0
  | .element cs _, i :: rest =>
      textSizeList (cs.take i) +
        (match cs[i]? with
         | some c => prefixSize c rest
         | none => 0)
  | _, _ :: _ => 0

/-- Whether no TextNode precedes the node at path `p` in pre-order
inside the subtree. -/
def noTextBefore : Node → List Nat → Bool
  | _, [] => true
  | .element cs _, i :: rest =>
      !hasTextList (cs.take i) &&
        (match cs[i]? with
         | some c => noTextBefore c rest
         | none => true)
  | _, _ :: _ => true

/-- The serializable `PointPath` record `{rootIndex, textOffset}`.  Both
fields are JS numbers; `rootIndex` is `-1` when the encoder runs on a
detached node, so both are modelled as `Int`. -/
structure PointPath where
  rootIndex : Int
  textOffset : Int
deriving DecidableEq, Repr

/-- Embedding of `$pointToPath`'s offset accumulation for a point inside
an attached block: the point's local offset `off` plus, at each ancestor
level strictly below the block (given by the path of child indices),
the `textSize` of every preceding sibling — `setOffsetFromPreviousSiblings`
adds exactly `textSize` for each previous sibling (`setOffsetFromTextNode`
for text nodes, the sum over `getAllTextNodes()` for elements, nothing
for line breaks), ascending until the parent is the root.  The source
accumulates from the innermost level outward; addition being
commutative, the per-level sums are added here on the way down. -/
def pathOffset : Node → List Nat → Int → Option Int
  | _, [], off => some off
  | .element cs _, i :: rest, off =>
      match cs[i]? with
      | some c => (pathOffset c rest off).map (fun t => t + (textSizeList (cs.take i) : Int))
      | none => none
  | _, _ :: _, _ => none

/-- Embedding of `$pointToPath` for a point attached under root child
`bi`: `rootIndex` is the block's index within the root
(`top.getIndexWithinParent()`), `textOffset` the accumulated offset. -/
def pointToPath (rc : List Node) (bi : Nat) (p : List Nat) (off : Int) : Option PointPath :=
  match rc[bi]? with
  | some b => (pathOffset b p off).map (fun t => { rootIndex := (bi : Int), textOffset := t })
  | none => none

/-- Embedding of `$pointToPath` as the recursion
`setOffsetFromPreviousSiblings` actually runs: `levels` holds the
point's node's previous siblings, then its parent's previous siblings,
and so on for every ancestor strictly below the chain's top (the first
node whose parent is the root or missing); each level contributes the
sum of `textSize` over those siblings.  `topIndex` is the value of
`top.getIndexWithinParent()` — the block index when the chain is
attached to the root, and the tree model's result for a parentless node
(`-1` in Lexical) when it is detached.  The recursion always terminates
by setting `top`, so the `'Expected top to be defined'` throw in the
source is unreachable and a `PointPath` is returned in both cases. -/
def pointToPathChain : List (List Node) → Int → Int → PointPath
  | [], topIndex, off => { rootIndex := topIndex, textOffset := off }
  | sibs :: rest, topIndex, off =>
      pointToPathChain rest topIndex (off + (textSizeList sibs : Int))

/-- Total contribution of a chain of previous-sibling levels. -/
def chainContribution : List (List Node) → Nat
  | [] => 0
  | sibs :: rest => textSizeList sibs + chainContribution rest

mutual

/-- Result of `findTargetNode` / `findTargetInTextNode` /
`findTargetInElementNode`: the first component models the
`TextNode | null` result (the matched node is identified by its path of
child indices together with its content), the second the updated
`textOffset`.  Translated clause by clause from the source:
a TextNode matches iff `size >= textOffset` (`findTargetInTextNode`),
otherwise subtracts its size; a LineBreakNode applies
`adjustTextOffsetForLineBreakNode`; an ElementNode recurses into its
children. -/
def findTargetNode (lbA : Int → Int) (elA : Node → Nat → Nat → Int → Int) :
    Node → Int → Option (List Nat × String) × Int
  | .text s, off =>
      if (s.length : Int) ≥ off then (some ([], s), off)
      else (none, off - s.length)
  | .element cs _, off => findTargetInChildren lbA elA cs 0 cs.length off
  | .linebreak, off => (none, lbA off)

/-- The loop of `findTargetInElementNode`: visits the children in order
starting at index `i` of `tot` children; a match is returned
immediately, otherwise `adjustTextOffsetForElementNode` is applied to
the updated offset before advancing to the next sibling. -/
def findTargetInChildren (lbA : Int → Int) (elA : Node → Nat → Nat → Int → Int) :
    List Node → Nat → Nat → Int → Option (List Nat × String) × Int
  | [], _, _, off => (none, off)
  | c :: rest, i, tot, off =>
      match findTargetNode lbA elA c off with
      | (some (p, s), off1) => (some (i :: p, s), off1)
      | (none, off1) => findTargetInChildren lbA elA rest (i + 1) tot (elA c i tot off1)

end

/-- Embedding of `root.getChildAtIndex(i)` with a JS number index:
`null` for a negative or out-of-range index. -/
def getChildAtIndex (cs : List Node) (i : Int) : Option Node :=
  if i < 0 then none else cs[i.toNat]?

/-- The point written by `$setPointFromPointPath` through `point.set`:
either a text position (matched TextNode identified by block index and
path, with an `Int` offset as produced by `Math.min`) or the element
position `(block, 0)` used as fallback. -/
inductive DecodedPoint where
  | textPoint (blockIndex : Nat) (path : List Nat) (offset : Int)
  | elementPoint (blockIndex : Nat) (offset : Nat)
deriving DecidableEq, Repr

/-- Embedding of `$setPointFromPointPath`: looks up the root child at
`path.rootIndex` (`assertNotNil` and `assert($isElementNode(top))`
modelled as `none`), runs the traversal, and either clamps the matched
offset with `Math.min(textOffset, targetNode.getTextContentSize())` or
falls back to the element position `(top, 0)`. -/
def setPointFromPointPath (rc : List Node) (path : PointPath)
    (lbA : Int → Int) (elA : Node → Nat → Nat → Int → Int) : Option DecodedPoint :=
  match getChildAtIndex rc path.rootIndex with
  | none => none
  | some top =>
      if isElementNode top then
        match findTargetNode lbA elA top path.textOffset with
        | (none, _) => some (.elementPoint path.rootIndex.toNat 0)
        | (some (p, s), off) => some (.textPoint path.rootIndex.toNat p (min off (s.length : Int)))
      else none

/-- The no-op `adjustTextOffsetForLineBreakNode` of `handlLoadSelection`
(exact policy). -/
def exactAdjustLB (t : Int) : Int := t

/-- The no-op `adjustTextOffsetForElementNode` of `handlLoadSelection`
(exact policy). -/
def exactAdjustEl (_n : Node) (_i _tot : Nat) (t : Int) : Int := t

/-- The `adjustTextOffsetForLineBreakNode` of `handleHighlight`
(rendered policy): a line break counts for 1 character. -/
def renderedAdjustLB (t : Int) : Int := t - 1

/-- The `adjustTextOffsetForElementNode` of `handleHighlight` (rendered
policy): subtracts `DOUBLE_LINE_BREAK.length = 2` under `sepCond`. -/
def renderedAdjustEl (n : Node) (i tot : Nat) (t : Int) : Int :=
  if sepCond n i tot then t - 2 else t

/-- Decoding as performed by `handlLoadSelection` (exact policy). -/
def decodeExact (rc : List Node) (p : PointPath) : Option DecodedPoint :=
  setPointFromPointPath rc p exactAdjustLB exactAdjustEl

/-- Decoding as performed by `handleHighlight` (rendered policy). -/
def decodeRendered (rc : List Node) (p : PointPath) : Option DecodedPoint :=
  setPointFromPointPath rc p renderedAdjustLB renderedAdjustEl

/-- Re-encoding of a decoded point with `$pointToPath`: a text position
encodes from its node's path and offset; the fallback element position
`(block, 0)` has the block itself as its node, whose raw `point.offset`
(`0`) seeds the count and no ascent contribution applies. -/
def encodeDecoded (rc : List Node) : DecodedPoint → Option PointPath
  | .textPoint bi p off => pointToPath rc bi p off
  | .elementPoint bi off => pointToPath rc bi [] (off : Int)

mutual

/-- Characters consumed by a full traversal of a subtree under a
cost-shaped policy: text sizes, plus `lbC` per line break, plus
`elC child i tot` after each child boundary. -/
def consumedNode (lbC : Nat) (elC : Node → Nat → Nat → Nat) : Node → Nat
  | .text s => s.length
  | .element cs _ => consumedChildren lbC elC cs 0 cs.length
  | .linebreak => lbC

/-- Characters consumed by traversing a list of children starting at
index `i` of `tot`. -/
def consumedChildren (lbC : Nat) (elC : Node → Nat → Nat → Nat) : List Node → Nat → Nat → Nat
  | [], _, _ => 0
  | c :: rest, i, tot =>
      consumedNode lbC elC c + elC c i tot + consumedChildren lbC elC rest (i + 1) tot

end

/-- The boundary cost of the rendered policy. -/
def rendElCost (n : Node) (i tot : Nat) : Nat :=
  if sepCond n i tot then 2 else 0

/-- Strict lexicographic order on paths of child indices: the pre-order
document order of the nodes they address. -/
def pathLt : List Nat → List Nat → Prop
  | _, [] => False
  | [], _ :: _ => True
  | a :: as_, b :: bs => a < b ∨ (a = b ∧ pathLt as_ bs)

/-- Document order on decoded points of one block: the element position
`(block, 0)` precedes or equals every position in the block; text
positions compare by path, then offset; a text position never precedes
or equals the block-start element position. -/
def docLe : DecodedPoint → DecodedPoint → Prop
  | .elementPoint _ _, _ => True
  | .textPoint _ p o, .textPoint _ q r => pathLt p q ∨ (p = q ∧ o ≤ r)
  | .textPoint _ _ _, .elementPoint _ _ => False

/-- Whether a decoded point is a text position. -/
def isTextDecoded : DecodedPoint → Bool
  | .textPoint _ _ _ => true
  | .elementPoint _ _ => false

/-- The hard-coded search phrase of the plugin. -/
def SENTENCE : String := "Roses are red."

/-- Embedding of JS `String.prototype.indexOf`: first index at which
`needle` occurs in `hay`, `-1` if it does not occur (`0` for the empty
needle). -/
def jsIndexOf : List Char → List Char → Int
  | [], needle => if needle.isEmpty then 0 else -1
  | c :: t, needle =>
      if needle.isPrefixOf (c :: t) then 0
      else
        let r := jsIndexOf t needle
        if r < 0 then -1 else r + 1

/-- Embedding of JS `String.prototype.includes`. -/
def jsIncludes (hay needle : List Char) : Bool :=
  decide (List.IsInfix needle hay)

/-- The matcher result `{rootIndex, startOffset, endOffset}`. -/
structure SentenceMatch where
  rootIndex : Nat
  startOffset : Int
  endOffset : Int
deriving DecidableEq, Repr

/-- The loop of `findFirstSentenceMatch` with its running block index.
Note the source checks `rootTexts[i].includes(sentence)` with the
parameter but computes `startOffset` with `rootTexts[i].indexOf(SENTENCE)`
and `endOffset` with `SENTENCE.length`, both from the module constant. -/
def findFirstSentenceMatchAux (sentence : List Char) : Nat → List (List Char) → Option SentenceMatch
  | _, [] => none
  | i, t :: rest =>
      if jsIncludes t sentence then
        some { rootIndex := i
               startOffset := jsIndexOf t SENTENCE.toList
               endOffset := jsIndexOf t SENTENCE.toList + (SENTENCE.toList.length : Int) }
      else findFirstSentenceMatchAux sentence (i + 1) rest

/-- Embedding of `findFirstSentenceMatch`. -/
def findFirstSentenceMatch (rootTexts : List (List Char)) (sentence : List Char) : Option SentenceMatch :=
  findFirstSentenceMatchAux sentence 0 rootTexts

/-- Definition following the spec's words for the Encoder's claimed
initialization at an ElementNode point (spec section 4.1): "the sum of
`size` over that element's first `offset` children".  Stated for
contrast with what `$pointToPath` actually does (use the raw offset). -/
def specElementInit (cs : List Node) (k : Nat) : Nat :=
  textSizeList (cs.take k)

/-! Induction principle for the nested tree type, with a companion
motive for child lists, used for all lemmas about the mutually
recursive traversals. -/

/-- Length of the line-break literal. -/
@[simp] theorem length_nl : ("\n" : String).length = 1 := rfl

/-- Length of the double-line-break literal. -/
@[simp] theorem length_nlnl : ("\n\n" : String).length = 2 := rfl

/-- Length of the empty string literal. -/
@[simp] theorem length_empty_str : ("" : String).length = 0 := rfl

/-- Simultaneous induction over nodes and lists of nodes. -/
theorem node_mutual_induction (motive : Node → Prop) (motiveL : List Node → Prop)
    (htext : ∀ s, motive (.text s))
    (hbr : motive .linebreak)
    (helem : ∀ cs b, motiveL cs → motive (.element cs b))
    (hnil : motiveL [])
    (hcons : ∀ c rest, motive c → motiveL rest → motiveL (c :: rest)) :
    (∀ n, motive n) ∧ (∀ cs, motiveL cs) := by
  have key : ∀ k : Nat, (∀ n : Node, sizeOf n ≤ k → motive n) ∧
      (∀ cs : List Node, sizeOf cs ≤ k → motiveL cs) := by
    intro k
    induction k using Nat.strong_induction_on with
    | _ k ih =>
      constructor
      · intro n hn
        cases n with
        | text s => exact htext s
        | linebreak => exact hbr
        | element cs b =>
          refine helem cs b ((ih (sizeOf cs) ?_).2 cs le_rfl)
          have : sizeOf cs < sizeOf (Node.element cs b) := by
            cases b <;> simp <;> omega
          omega
      · intro cs hcs
        cases cs with
        | nil => exact hnil
        | cons c rest =>
          have h1 : sizeOf c < sizeOf (c :: rest) := by
            simp only [List.cons.sizeOf_spec]; omega
          have h2 : sizeOf rest < sizeOf (c :: rest) := by
            simp only [List.cons.sizeOf_spec]; omega
          exact hcons c rest ((ih (sizeOf c) (by omega)).1 c le_rfl)
            ((ih (sizeOf rest) (by omega)).2 rest le_rfl)
  exact ⟨fun n => (key (sizeOf n)).1 n le_rfl, fun cs => (key (sizeOf cs)).2 cs le_rfl⟩

/-- Under the exact costs (0 per line break, 0 per boundary), the
consumed count of a subtree is its `textSize`. -/
theorem consumed_exact :
    (∀ n, consumedNode 0 (fun _ _ _ => 0) n = textSize n) ∧
    (∀ cs, ∀ i tot, consumedChildren 0 (fun _ _ _ => 0) cs i tot = textSizeList cs) := by
  have h := node_mutual_induction
    (fun n => consumedNode 0 (fun _ _ _ => 0) n = textSize n)
    (fun cs => ∀ i tot, consumedChildren 0 (fun _ _ _ => 0) cs i tot = textSizeList cs)
    (by intro s; simp [consumedNode, textSize])
    (by simp [consumedNode, textSize])
    (by intro cs b hcs; simp [consumedNode, textSize, hcs])
    (by intro i tot; simp [consumedChildren, textSizeList])
    (by intro c rest hc hrest i tot; simp [consumedChildren, textSizeList, hc, hrest])
  exact ⟨h.1, fun cs i tot => h.2 cs i tot⟩

/-- Under the rendered costs (1 per line break, 2 per separator
boundary), the consumed count of a subtree is the length of its
rendered flattening. -/
theorem consumed_rendered :
    (∀ n, consumedNode 1 rendElCost n = (renderedText n).length) ∧
    (∀ cs, ∀ i tot, consumedChildren 1 rendElCost cs i tot = (renderedList cs i tot).length) := by
  have h := node_mutual_induction
    (fun n => consumedNode 1 rendElCost n = (renderedText n).length)
    (fun cs => ∀ i tot, consumedChildren 1 rendElCost cs i tot = (renderedList cs i tot).length)
    (by intro s; simp [consumedNode, renderedText])
    (by simp [consumedNode, renderedText])
    (by intro cs b hcs; simp [consumedNode, renderedText, hcs])
    (by intro i tot; simp [consumedChildren, renderedList])
    (by
      intro c rest hc hrest i tot
      simp only [consumedChildren, renderedList, String.length_append, hc, hrest, rendElCost]
      by_cases hsep : sepCond c i tot <;> simp [hsep])
  exact ⟨h.1, fun cs i tot => h.2 cs i tot⟩

/-- A subtree with no TextNode has `textSize` zero. -/
theorem textSize_eq_zero_of_not_hasText :
    (∀ n, hasText n = false → textSize n = 0) ∧
    (∀ cs, hasTextList cs = false → textSizeList cs = 0) := by
  exact node_mutual_induction
    (fun n => hasText n = false → textSize n = 0)
    (fun cs => hasTextList cs = false → textSizeList cs = 0)
    (by intro s h; simp [hasText] at h)
    (by intro _; simp [textSize])
    (by intro cs b hcs h; simp [hasText] at h; simp [textSize, hcs h])
    (by intro _; simp [textSizeList])
    (by
      intro c rest hc hrest h
      simp [hasTextList] at h
      simp [textSizeList, hc h.1, hrest h.2])

/-- A subtree containing the node addressed by a path to a TextNode has
a TextNode. -/
theorem hasText_of_nodeAt_text : ∀ (p : List Nat) (n : Node) (s : String),
    nodeAt n p = some (.text s) → hasText n = true := by
  intro p
  induction p with
  | nil =>
    intro n s h
    simp [nodeAt] at h
    subst h
    simp [hasText]
  | cons i rest ih =>
    intro n s h
    cases n with
    | text t => simp [nodeAt] at h
    | linebreak => simp [nodeAt] at h
    | element cs b =>
      simp only [nodeAt] at h
      cases hc : cs[i]? with
      | none => rw [hc] at h; simp at h
      | some c =>
        rw [hc] at h
        have hct := ih c s h
        have hmem : c ∈ cs := by
          have := List.getElem?_eq_some_iff.mp hc
          obtain ⟨hlt, hg⟩ := this
          exact hg ▸ List.getElem_mem hlt
        have : hasTextList cs = true := by
          clear hc h
          induction cs with
          | nil => simp at hmem
          | cons d ds ihd =>
            rcases List.mem_cons.mp hmem with h1 | h2
            · subst h1; simp [hasTextList, hct]
            · simp [hasTextList, ihd h2]
        simp [hasText, this]

/-- Encoding along a valid path accumulates exactly the pre-order
exact-flattened prefix of the path plus the local offset. -/
theorem pathOffset_eq : ∀ (p : List Nat) (n : Node) (m : Node) (off : Int),
    nodeAt n p = some m →
    pathOffset n p off = some ((prefixSize n p : Int) + off) := by
  intro p
  induction p with
  | nil => intro n m off _; simp [pathOffset, prefixSize]
  | cons i rest ih =>
    intro n m off h
    cases n with
    | text t => simp [nodeAt] at h
    | linebreak => simp [nodeAt] at h
    | element cs b =>
      simp only [nodeAt] at h
      cases hc : cs[i]? with
      | none => rw [hc] at h; simp at h
      | some c =>
        rw [hc] at h
        simp only [pathOffset, hc, prefixSize, ih c m off h, Option.map_some']
        congr 1
        push_cast
        ring

/-- When the traversal of a subtree finds no target, the updated offset
is the initial offset minus the subtree's consumed count, for any
adjustment functions of the cost shape `t ↦ t - cost`. -/
theorem findTarget_none_offset (lbA : Int → Int) (elA : Node → Nat → Nat → Int → Int)
    (lbC : Nat) (elC : Node → Nat → Nat → Nat)
    (hlbA : ∀ t, lbA t = t - lbC)
    (helA : ∀ n i tot t, elA n i tot t = t - elC n i tot) :
    (∀ n, ∀ off : Int, (findTargetNode lbA elA n off).1 = none →
      findTargetNode lbA elA n off = (none, off - consumedNode lbC elC n)) ∧
    (∀ cs, ∀ (i tot : Nat) (off : Int), (findTargetInChildren lbA elA cs i tot off).1 = none →
      findTargetInChildren lbA elA cs i tot off = (none, off - consumedChildren lbC elC cs i tot)) := by
  have h := node_mutual_induction
    (fun n => ∀ off : Int, (findTargetNode lbA elA n off).1 = none →
      findTargetNode lbA elA n off = (none, off - consumedNode lbC elC n))
    (fun cs => ∀ (i tot : Nat) (off : Int), (findTargetInChildren lbA elA cs i tot off).1 = none →
      findTargetInChildren lbA elA cs i tot off = (none, off - consumedChildren lbC elC cs i tot))
    (by
      intro s off hnone
      simp only [findTargetNode] at hnone ⊢
      by_cases hc : (s.length : Int) ≥ off
      · simp [hc] at hnone
      · simp [hc, consumedNode])
    (by
      intro off _
      simp [findTargetNode, consumedNode, hlbA off])
    (by
      intro cs b hcs off hnone
      simp only [findTargetNode] at hnone ⊢
      simpa only [consumedNode] using hcs 0 cs.length off hnone)
    (by
      intro i tot off _
      simp [findTargetInChildren, consumedChildren])
    (by
      intro c rest hc hrest i tot off hnone
      rcases hfc : findTargetNode lbA elA c off with ⟨tgt, off1⟩
      cases tgt with
      | some t =>
        rcases t with ⟨p, s⟩
        have hstep : findTargetInChildren lbA elA (c :: rest) i tot off = (some (i :: p, s), off1) := by
          simp only [findTargetInChildren, hfc]
        rw [hstep] at hnone
        simp at hnone
      | none =>
        have hstep : findTargetInChildren lbA elA (c :: rest) i tot off =
            findTargetInChildren lbA elA rest (i + 1) tot (elA c i tot off1) := by
          simp only [findTargetInChildren, hfc]
        have hoff1 : off1 = off - consumedNode lbC elC c := by
          have h0 := hc off (by rw [hfc])
          rw [hfc] at h0
          exact ((Prod.mk.injEq _ _ _ _).mp h0).2
        have hadj : elA c i tot off1 = off - consumedNode lbC elC c - elC c i tot := by
          rw [helA, hoff1]
        rw [hstep, hadj] at hnone ⊢
        rw [hrest (i + 1) tot _ hnone]
        simp only [consumedChildren, Prod.mk.injEq, true_and]
        push_cast
        ring)
  exact ⟨h.1, fun cs i tot off => h.2 cs i tot off⟩

/-- If a traversal finds no target at some offset, it also finds none
at any larger offset (a larger offset overshoots every text node the
smaller one overshoots). -/
theorem findTarget_none_mono (lbA : Int → Int) (elA : Node → Nat → Nat → Int → Int)
    (lbC : Nat) (elC : Node → Nat → Nat → Nat)
    (hlbA : ∀ t, lbA t = t - lbC)
    (helA : ∀ n i tot t, elA n i tot t = t - elC n i tot) :
    (∀ n, ∀ off1 off2 : Int, off1 ≤ off2 → (findTargetNode lbA elA n off1).1 = none →
      (findTargetNode lbA elA n off2).1 = none) ∧
    (∀ cs, ∀ (i tot : Nat) (off1 off2 : Int), off1 ≤ off2 →
      (findTargetInChildren lbA elA cs i tot off1).1 = none →
      (findTargetInChildren lbA elA cs i tot off2).1 = none) := by
  have hm1 := findTarget_none_offset lbA elA lbC elC hlbA helA
  have h := node_mutual_induction
    (fun n => ∀ off1 off2 : Int, off1 ≤ off2 → (findTargetNode lbA elA n off1).1 = none →
      (findTargetNode lbA elA n off2).1 = none)
    (fun cs => ∀ (i tot : Nat) (off1 off2 : Int), off1 ≤ off2 →
      (findTargetInChildren lbA elA cs i tot off1).1 = none →
      (findTargetInChildren lbA elA cs i tot off2).1 = none)
    (by
      intro s off1 off2 hle hnone
      by_cases hc1 : (s.length : Int) ≥ off1
      · simp [findTargetNode, hc1] at hnone
      · have hc2 : ¬((s.length : Int) ≥ off2) := by omega
        simp [findTargetNode, hc2])
    (by
      intro off1 off2 _ _
      simp [findTargetNode])
    (by
      intro cs b hcs off1 off2 hle hnone
      simp only [findTargetNode] at hnone ⊢
      exact hcs 0 cs.length off1 off2 hle hnone)
    (by
      intro i tot off1 off2 _ _
      simp [findTargetInChildren])
    (by
      intro c rest hcIH hrestIH i tot off1 off2 hle hnone
      rcases hfc1 : findTargetNode lbA elA c off1 with ⟨tgt1, o1⟩
      cases tgt1 with
      | some t =>
        rcases t with ⟨p, s⟩
        have hstep : findTargetInChildren lbA elA (c :: rest) i tot off1 = (some (i :: p, s), o1) := by
          simp only [findTargetInChildren, hfc1]
        rw [hstep] at hnone
        simp at hnone
      | none =>
        have h1 : findTargetNode lbA elA c off1 = (none, off1 - consumedNode lbC elC c) :=
          hm1.1 c off1 (by rw [hfc1])
        have hn2 : (findTargetNode lbA elA c off2).1 = none :=
          hcIH off1 off2 hle (by rw [hfc1])
        have h2 : findTargetNode lbA elA c off2 = (none, off2 - consumedNode lbC elC c) :=
          hm1.1 c off2 hn2
        have hstep1 : findTargetInChildren lbA elA (c :: rest) i tot off1 =
            findTargetInChildren lbA elA rest (i + 1) tot (elA c i tot (off1 - consumedNode lbC elC c)) := by
          simp only [findTargetInChildren, h1]
        have hstep2 : findTargetInChildren lbA elA (c :: rest) i tot off2 =
            findTargetInChildren lbA elA rest (i + 1) tot (elA c i tot (off2 - consumedNode lbC elC c)) := by
          simp only [findTargetInChildren, h2]
        rw [hstep1] at hnone
        rw [hstep2]
        rw [helA] at hnone ⊢
        exact hrestIH (i + 1) tot _ _ (by omega) hnone)
  exact ⟨h.1, fun cs i tot off1 off2 => h.2 cs i tot off1 off2⟩

/-- A matched traversal started from an offset no larger than the
subtree's consumed count. -/
theorem findTarget_some_le (lbA : Int → Int) (elA : Node → Nat → Nat → Int → Int)
    (lbC : Nat) (elC : Node → Nat → Nat → Nat)
    (hlbA : ∀ t, lbA t = t - lbC)
    (helA : ∀ n i tot t, elA n i tot t = t - elC n i tot) :
    (∀ n, ∀ (off : Int) p s r, findTargetNode lbA elA n off = (some (p, s), r) →
      off ≤ (consumedNode lbC elC n : Int)) ∧
    (∀ cs, ∀ (i tot : Nat) (off : Int) q s r,
      findTargetInChildren lbA elA cs i tot off = (some (q, s), r) →
      off ≤ (consumedChildren lbC elC cs i tot : Int)) := by
  have hm1 := findTarget_none_offset lbA elA lbC elC hlbA helA
  have h := node_mutual_induction
    (fun n => ∀ (off : Int) p s r, findTargetNode lbA elA n off = (some (p, s), r) →
      off ≤ (consumedNode lbC elC n : Int))
    (fun cs => ∀ (i tot : Nat) (off : Int) q s r,
      findTargetInChildren lbA elA cs i tot off = (some (q, s), r) →
      off ≤ (consumedChildren lbC elC cs i tot : Int))
    (by
      intro s0 off p s r hmatch
      by_cases hc : (s0.length : Int) ≥ off
      · simpa [consumedNode] using hc
      · simp [findTargetNode, hc] at hmatch)
    (by
      intro off p s r hmatch
      simp [findTargetNode] at hmatch)
    (by
      intro cs b hcs off p s r hmatch
      simp only [findTargetNode] at hmatch
      simpa only [consumedNode] using hcs 0 cs.length off p s r hmatch)
    (by
      intro i tot off q s r hmatch
      simp [findTargetInChildren] at hmatch)
    (by
      intro c rest hcIH hrestIH i tot off q s r hmatch
      rcases hfc : findTargetNode lbA elA c off with ⟨tgt, o1⟩
      cases tgt with
      | some t =>
        rcases t with ⟨p0, s0⟩
        have hle := hcIH off p0 s0 o1 hfc
        have : (0 : Int) ≤ elC c i tot := by positivity
        have : (0 : Int) ≤ consumedChildren lbC elC rest (i + 1) tot := by positivity
        simp only [consumedChildren]
        push_cast
        omega
      | none =>
        have h1 : findTargetNode lbA elA c off = (none, off - consumedNode lbC elC c) :=
          hm1.1 c off (by rw [hfc])
        have hstep : findTargetInChildren lbA elA (c :: rest) i tot off =
            findTargetInChildren lbA elA rest (i + 1) tot (elA c i tot (off - consumedNode lbC elC c)) := by
          simp only [findTargetInChildren, h1]
        rw [hstep] at hmatch
        rw [helA] at hmatch
        have hle := hrestIH (i + 1) tot _ q s r hmatch
        simp only [consumedChildren]
        push_cast
        omega)
  exact ⟨h.1, fun cs i tot off q s r => h.2 cs i tot off q s r⟩

/-- A matched traversal returns the path of a genuine TextNode of the
subtree, with that node's content, and an offset at most its size —
for arbitrary adjustment functions. -/
theorem findTarget_some_valid (lbA : Int → Int) (elA : Node → Nat → Nat → Int → Int) :
    (∀ n, ∀ (off : Int) p s r, findTargetNode lbA elA n off = (some (p, s), r) →
      nodeAt n p = some (.text s) ∧ r ≤ (s.length : Int)) ∧
    (∀ cs, ∀ (i tot : Nat) (off : Int) q s r,
      findTargetInChildren lbA elA cs i tot off = (some (q, s), r) →
      ∃ j p c, q = (i + j) :: p ∧ cs[j]? = some c ∧ nodeAt c p = some (.text s) ∧
        r ≤ (s.length : Int)) := by
  have h := node_mutual_induction
    (fun n => ∀ (off : Int) p s r, findTargetNode lbA elA n off = (some (p, s), r) →
      nodeAt n p = some (.text s) ∧ r ≤ (s.length : Int))
    (fun cs => ∀ (i tot : Nat) (off : Int) q s r,
      findTargetInChildren lbA elA cs i tot off = (some (q, s), r) →
      ∃ j p c, q = (i + j) :: p ∧ cs[j]? = some c ∧ nodeAt c p = some (.text s) ∧
        r ≤ (s.length : Int))
    (by
      intro s0 off p s r hmatch
      by_cases hc : (s0.length : Int) ≥ off
      · simp [findTargetNode, hc] at hmatch
        obtain ⟨⟨hp, hs⟩, hr⟩ := hmatch
        subst hp; subst hs; subst hr
        simp [nodeAt]
        omega
      · simp [findTargetNode, hc] at hmatch)
    (by
      intro off p s r hmatch
      simp [findTargetNode] at hmatch)
    (by
      intro cs b hcs off p s r hmatch
      simp only [findTargetNode] at hmatch
      obtain ⟨j, p0, c, hq, hget, hat, hr⟩ := hcs 0 cs.length off p s r hmatch
      subst hq
      simp only [Nat.zero_add, nodeAt, hget]
      exact ⟨hat, hr⟩)
    (by
      intro i tot off q s r hmatch
      simp [findTargetInChildren] at hmatch)
    (by
      intro c rest hcIH hrestIH i tot off q s r hmatch
      rcases hfc : findTargetNode lbA elA c off with ⟨tgt, o1⟩
      cases tgt with
      | some t =>
        rcases t with ⟨p0, s0⟩
        have hstep : findTargetInChildren lbA elA (c :: rest) i tot off = (some (i :: p0, s0), o1) := by
          simp only [findTargetInChildren, hfc]
        rw [hstep] at hmatch
        obtain ⟨⟨hq, hs⟩, hr⟩ := by simpa using hmatch
        obtain ⟨hat, hle⟩ := hcIH off p0 s0 o1 hfc
        subst hq; subst hs; subst hr
        exact ⟨0, p0, c, by simp, by simp, hat, hle⟩
      | none =>
        have hstep : findTargetInChildren lbA elA (c :: rest) i tot off =
            findTargetInChildren lbA elA rest (i + 1) tot (elA c i tot o1) := by
          simp only [findTargetInChildren, hfc]
        rw [hstep] at hmatch
        obtain ⟨j, p0, c0, hq, hget, hat, hr⟩ := hrestIH (i + 1) tot _ q s r hmatch
        refine ⟨j + 1, p0, c0, ?_, ?_, hat, hr⟩
        · rw [hq]
          congr 1
          omega
        · simpa using hget)
  exact ⟨h.1, fun cs i tot off q s r => h.2 cs i tot off q s r⟩

/-- Two matched traversals of one subtree are ordered: the smaller
offset matches at an earlier node in pre-order, or at the same node
with a smaller or equal remaining offset. -/
theorem findTarget_some_order (lbA : Int → Int) (elA : Node → Nat → Nat → Int → Int)
    (lbC : Nat) (elC : Node → Nat → Nat → Nat)
    (hlbA : ∀ t, lbA t = t - lbC)
    (helA : ∀ n i tot t, elA n i tot t = t - elC n i tot) :
    (∀ n, ∀ (off1 off2 : Int) p1 s1 r1 p2 s2 r2, off1 ≤ off2 →
      findTargetNode lbA elA n off1 = (some (p1, s1), r1) →
      findTargetNode lbA elA n off2 = (some (p2, s2), r2) →
      pathLt p1 p2 ∨ (p1 = p2 ∧ s1 = s2 ∧ r1 ≤ r2)) ∧
    (∀ cs, ∀ (i tot : Nat) (off1 off2 : Int) q1 s1 r1 q2 s2 r2, off1 ≤ off2 →
      findTargetInChildren lbA elA cs i tot off1 = (some (q1, s1), r1) →
      findTargetInChildren lbA elA cs i tot off2 = (some (q2, s2), r2) →
      pathLt q1 q2 ∨ (q1 = q2 ∧ s1 = s2 ∧ r1 ≤ r2)) := by
  have hm1 := findTarget_none_offset lbA elA lbC elC hlbA helA
  have hm2 := findTarget_none_mono lbA elA lbC elC hlbA helA
  have hT := findTarget_some_valid lbA elA
  have h := node_mutual_induction
    (fun n => ∀ (off1 off2 : Int) p1 s1 r1 p2 s2 r2, off1 ≤ off2 →
      findTargetNode lbA elA n off1 = (some (p1, s1), r1) →
      findTargetNode lbA elA n off2 = (some (p2, s2), r2) →
      pathLt p1 p2 ∨ (p1 = p2 ∧ s1 = s2 ∧ r1 ≤ r2))
    (fun cs => ∀ (i tot : Nat) (off1 off2 : Int) q1 s1 r1 q2 s2 r2, off1 ≤ off2 →
      findTargetInChildren lbA elA cs i tot off1 = (some (q1, s1), r1) →
      findTargetInChildren lbA elA cs i tot off2 = (some (q2, s2), r2) →
      pathLt q1 q2 ∨ (q1 = q2 ∧ s1 = s2 ∧ r1 ≤ r2))
    (by
      intro s0 off1 off2 p1 s1 r1 p2 s2 r2 hle h1 h2
      by_cases hc1 : (s0.length : Int) ≥ off1
      · by_cases hc2 : (s0.length : Int) ≥ off2
        · simp [findTargetNode, hc1] at h1
          simp [findTargetNode, hc2] at h2
          obtain ⟨⟨hp1, hs1⟩, hr1⟩ := h1
          obtain ⟨⟨hp2, hs2⟩, hr2⟩ := h2
          subst hp1; subst hs1; subst hr1; subst hp2; subst hs2; subst hr2
          exact Or.inr ⟨rfl, rfl, hle⟩
        · simp [findTargetNode, hc2] at h2
      · simp [findTargetNode, hc1] at h1)
    (by
      intro off1 off2 p1 s1 r1 p2 s2 r2 _ h1 _
      simp [findTargetNode] at h1)
    (by
      intro cs b hcs off1 off2 p1 s1 r1 p2 s2 r2 hle h1 h2
      simp only [findTargetNode] at h1 h2
      exact hcs 0 cs.length off1 off2 p1 s1 r1 p2 s2 r2 hle h1 h2)
    (by
      intro i tot off1 off2 q1 s1 r1 q2 s2 r2 _ h1 _
      simp [findTargetInChildren] at h1)
    (by
      intro c rest hcIH hrestIH i tot off1 off2 q1 s1 r1 q2 s2 r2 hle h1 h2
      rcases hfc1 : findTargetNode lbA elA c off1 with ⟨tgt1, o1⟩
      rcases hfc2 : findTargetNode lbA elA c off2 with ⟨tgt2, o2⟩
      cases tgt1 with
      | some t1 =>
        rcases t1 with ⟨pa, sa⟩
        have hstep1 : findTargetInChildren lbA elA (c :: rest) i tot off1 = (some (i :: pa, sa), o1) := by
          simp only [findTargetInChildren, hfc1]
        rw [hstep1] at h1
        obtain ⟨⟨hq1, hs1⟩, hr1⟩ := by simpa using h1
        cases tgt2 with
        | some t2 =>
          rcases t2 with ⟨pb, sb⟩
          have hstep2 : findTargetInChildren lbA elA (c :: rest) i tot off2 = (some (i :: pb, sb), o2) := by
            simp only [findTargetInChildren, hfc2]
          rw [hstep2] at h2
          obtain ⟨⟨hq2, hs2⟩, hr2⟩ := by simpa using h2
          subst hq1; subst hs1; subst hr1; subst hq2; subst hs2; subst hr2
          rcases hcIH off1 off2 pa sa o1 pb sb o2 hle hfc1 hfc2 with hlt | ⟨hpe, hse, hre⟩
          · left
            simp [pathLt, hlt]
          · exact Or.inr ⟨by rw [hpe], hse, hre⟩
        | none =>
          have hstep2 : findTargetInChildren lbA elA (c :: rest) i tot off2 =
              findTargetInChildren lbA elA rest (i + 1) tot (elA c i tot o2) := by
            simp only [findTargetInChildren, hfc2]
          rw [hstep2] at h2
          obtain ⟨j, p0, c0, hq2, _, _, _⟩ := hT.2 rest (i + 1) tot _ q2 s2 r2 h2
          left
          rw [← hq1, hq2]
          simp [pathLt]
          omega
      | none =>
        cases tgt2 with
        | some t2 =>
          have hn2 : (findTargetNode lbA elA c off2).1 = none :=
            hm2.1 c off1 off2 hle (by rw [hfc1])
          rw [hfc2] at hn2
          simp at hn2
        | none =>
          have he1 : findTargetNode lbA elA c off1 = (none, off1 - consumedNode lbC elC c) :=
            hm1.1 c off1 (by rw [hfc1])
          have he2 : findTargetNode lbA elA c off2 = (none, off2 - consumedNode lbC elC c) :=
            hm1.1 c off2 (by rw [hfc2])
          have hstep1 : findTargetInChildren lbA elA (c :: rest) i tot off1 =
              findTargetInChildren lbA elA rest (i + 1) tot (elA c i tot (off1 - consumedNode lbC elC c)) := by
            simp only [findTargetInChildren, he1]
          have hstep2 : findTargetInChildren lbA elA (c :: rest) i tot off2 =
              findTargetInChildren lbA elA rest (i + 1) tot (elA c i tot (off2 - consumedNode lbC elC c)) := by
            simp only [findTargetInChildren, he2]
          rw [hstep1] at h1
          rw [hstep2] at h2
          rw [helA] at h1 h2
          exact hrestIH (i + 1) tot _ _ q1 s1 r1 q2 s2 r2 (by omega) h1 h2)
  exact ⟨h.1, fun cs i tot => h.2 cs i tot⟩

/-- The exact line-break adjustment has cost shape 0. -/
theorem exactAdjustLB_cost : ∀ t : Int, exactAdjustLB t = t - ((0 : Nat) : Int) := by
  intro t; simp [exactAdjustLB]

/-- The exact element-boundary adjustment has cost shape 0. -/
theorem exactAdjustEl_cost : ∀ (n : Node) (i tot : Nat) (t : Int),
    exactAdjustEl n i tot t = t - (((fun _ _ _ => 0) n i tot : Nat) : Int) := by
  intro n i tot t; simp [exactAdjustEl]

/-- The rendered line-break adjustment has cost shape 1. -/
theorem renderedAdjustLB_cost : ∀ t : Int, renderedAdjustLB t = t - ((1 : Nat) : Int) := by
  intro t; simp [renderedAdjustLB]

/-- The rendered element-boundary adjustment has cost shape
`rendElCost`. -/
theorem renderedAdjustEl_cost : ∀ (n : Node) (i tot : Nat) (t : Int),
    renderedAdjustEl n i tot t = t - ((rendElCost n i tot : Nat) : Int) := by
  intro n i tot t
  simp only [renderedAdjustEl, rendElCost]
  by_cases h : sepCond n i tot <;> simp [h]

/-- Under the exact policy, an offset strictly above a subtree's text
size passes through, consuming it. -/
theorem findTarget_exact_overshoot (n : Node) (off : Int) (h : (textSize n : Int) < off) :
    findTargetNode exactAdjustLB exactAdjustEl n off = (none, off - textSize n) := by
  rcases hfc : findTargetNode exactAdjustLB exactAdjustEl n off with ⟨tgt, o⟩
  cases tgt with
  | some t =>
    rcases t with ⟨p, s⟩
    have hle := (findTarget_some_le exactAdjustLB exactAdjustEl 0 (fun _ _ _ => 0)
      exactAdjustLB_cost exactAdjustEl_cost).1 n off p s o hfc
    rw [(consumed_exact).1 n] at hle
    omega
  | none =>
    have h1 := (findTarget_none_offset exactAdjustLB exactAdjustEl 0 (fun _ _ _ => 0)
      exactAdjustLB_cost exactAdjustEl_cost).1 n off (by rw [hfc])
    rw [hfc] at h1
    have ho : o = off - consumedNode 0 (fun _ _ _ => 0) n := ((Prod.mk.injEq _ _ _ _).mp h1).2
    rw [ho, (consumed_exact).1 n]

/-- Under the exact policy, a subtree with no TextNode passes any
offset through unchanged. -/
theorem findTarget_exact_noText (n : Node) (off : Int) (h : hasText n = false) :
    findTargetNode exactAdjustLB exactAdjustEl n off = (none, off) := by
  rcases hfc : findTargetNode exactAdjustLB exactAdjustEl n off with ⟨tgt, o⟩
  cases tgt with
  | some t =>
    rcases t with ⟨p, s⟩
    have hat := ((findTarget_some_valid exactAdjustLB exactAdjustEl).1 n off p s o hfc).1
    rw [hasText_of_nodeAt_text p n s hat] at h
    simp at h
  | none =>
    have h1 := (findTarget_none_offset exactAdjustLB exactAdjustEl 0 (fun _ _ _ => 0)
      exactAdjustLB_cost exactAdjustEl_cost).1 n off (by rw [hfc])
    rw [hfc] at h1
    have ho : o = off - consumedNode 0 (fun _ _ _ => 0) n := ((Prod.mk.injEq _ _ _ _).mp h1).2
    rw [ho, (consumed_exact).1 n, (textSize_eq_zero_of_not_hasText).1 n h]
    simp

/-- Under the exact policy, an offset strictly above the total text
size of a prefix of siblings traverses the whole prefix, consuming its
text size. -/
theorem findTargetInChildren_exact_prefix :
    ∀ (cs1 cs2 : List Node) (i tot : Nat) (off : Int), (textSizeList cs1 : Int) < off →
    findTargetInChildren exactAdjustLB exactAdjustEl (cs1 ++ cs2) i tot off =
      findTargetInChildren exactAdjustLB exactAdjustEl cs2 (i + cs1.length) tot (off - textSizeList cs1) := by
  intro cs1
  induction cs1 with
  | nil =>
    intro cs2 i tot off _
    simp [textSizeList]
  | cons c cs1' ih =>
    intro cs2 i tot off hlt
    have hts : (0 : Int) ≤ textSizeList cs1' := by positivity
    have hc : findTargetNode exactAdjustLB exactAdjustEl c off = (none, off - textSize c) := by
      apply findTarget_exact_overshoot
      simp only [textSizeList] at hlt
      push_cast at hlt ⊢
      omega
    have hstep : findTargetInChildren exactAdjustLB exactAdjustEl ((c :: cs1') ++ cs2) i tot off =
        findTargetInChildren exactAdjustLB exactAdjustEl (cs1' ++ cs2) (i + 1) tot (off - textSize c) := by
      simp only [List.cons_append, findTargetInChildren, hc, exactAdjustEl]
      rfl
    rw [hstep, ih cs2 (i + 1) tot (off - textSize c) (by
      simp only [textSizeList] at hlt
      push_cast at hlt ⊢
      omega)]
    simp only [List.length_cons, textSizeList]
    congr 1
    · omega
    · push_cast
      ring

/-- Under the exact policy, a prefix of siblings with no TextNode is
traversed without changing the offset. -/
theorem findTargetInChildren_exact_noText :
    ∀ (cs1 cs2 : List Node) (i tot : Nat) (off : Int), hasTextList cs1 = false →
    findTargetInChildren exactAdjustLB exactAdjustEl (cs1 ++ cs2) i tot off =
      findTargetInChildren exactAdjustLB exactAdjustEl cs2 (i + cs1.length) tot off := by
  intro cs1
  induction cs1 with
  | nil =>
    intro cs2 i tot off _
    simp
  | cons c cs1' ih =>
    intro cs2 i tot off hnt
    simp only [hasTextList, Bool.or_eq_false_iff] at hnt
    have hc := findTarget_exact_noText c off hnt.1
    have hstep : findTargetInChildren exactAdjustLB exactAdjustEl ((c :: cs1') ++ cs2) i tot off =
        findTargetInChildren exactAdjustLB exactAdjustEl (cs1' ++ cs2) (i + 1) tot off := by
      simp only [List.cons_append, findTargetInChildren, hc, exactAdjustEl]
      rfl
    rw [hstep, ih cs2 (i + 1) tot off hnt.2]
    congr 1
    simp only [List.length_cons]
    omega

/-- The exact traversal started at the encoder's offset for a text
point finds exactly that point, provided the local offset is at least 1
or no TextNode precedes the point's node in its block. -/
theorem findTarget_exact_at_path (s : String) (o : Nat) :
    ∀ (p : List Nat) (n : Node),
    nodeAt n p = some (.text s) → o ≤ s.length → (1 ≤ o ∨ noTextBefore n p = true) →
    findTargetNode exactAdjustLB exactAdjustEl n ((prefixSize n p : Int) + o) = (some (p, s), (o : Int)) := by
  intro p
  induction p with
  | nil =>
    intro n hat hle _
    simp only [nodeAt, Option.some.injEq] at hat
    subst hat
    simp only [findTargetNode, prefixSize]
    rw [if_pos (by push_cast; omega)]
    simp
  | cons i rest ih =>
    intro n hat hle hdisj
    cases n with
    | text t => simp [nodeAt] at hat
    | linebreak => simp [nodeAt] at hat
    | element cs b =>
      simp only [nodeAt] at hat
      cases hc : cs[i]? with
      | none => rw [hc] at hat; simp at hat
      | some c =>
        rw [hc] at hat
        obtain ⟨hilt, hie⟩ := List.getElem?_eq_some_iff.mp hc
        have hsplit : cs = cs.take i ++ c :: cs.drop (i + 1) := by
          conv_lhs => rw [← List.take_append_drop i cs]
          rw [List.drop_eq_getElem_cons hilt, hie]
        have hlen : (cs.take i).length = i := by
          simp [List.length_take]
          omega
        have hpre : prefixSize (Node.element cs b) (i :: rest) =
            textSizeList (cs.take i) + prefixSize c rest := by
          simp [prefixSize, hc]
        by_cases ho : 1 ≤ o
        · have hih := ih c hat hle (Or.inl ho)
          have hpos : (0 : Int) ≤ prefixSize c rest := by positivity
          have hovershoot : (textSizeList (cs.take i) : Int) <
              (prefixSize (Node.element cs b) (i :: rest) : Int) + o := by
            rw [hpre]; push_cast; omega
          have hgen : ∀ off0 : Int, findTargetNode exactAdjustLB exactAdjustEl (Node.element cs b) off0 =
              findTargetInChildren exactAdjustLB exactAdjustEl (cs.take i ++ c :: cs.drop (i + 1))
                0 (cs.take i ++ c :: cs.drop (i + 1)).length off0 := by
            intro off0
            conv_lhs => rw [findTargetNode]
            rw [← hsplit]
          rw [hgen, findTargetInChildren_exact_prefix _ _ _ _ _ hovershoot, hlen]
          have hoffeq : (prefixSize (Node.element cs b) (i :: rest) : Int) + o -
              textSizeList (cs.take i) = (prefixSize c rest : Int) + o := by
            rw [hpre]; push_cast; ring
          rw [hoffeq]
          simp only [Nat.zero_add, findTargetInChildren, hih]
        · have ho0 : o = 0 := by omega
          have hntb : noTextBefore (Node.element cs b) (i :: rest) = true := by
            rcases hdisj with h1 | h2
            · omega
            · exact h2
          simp only [noTextBefore, hc, Bool.and_eq_true, Bool.not_eq_eq_eq_not, Bool.not_true] at hntb
          obtain ⟨hnt1, hnt2⟩ := hntb
          have hih := ih c hat hle (Or.inr hnt2)
          have hts0 : textSizeList (cs.take i) = 0 :=
            (textSize_eq_zero_of_not_hasText).2 (cs.take i) hnt1
          have hgen : ∀ off0 : Int, findTargetNode exactAdjustLB exactAdjustEl (Node.element cs b) off0 =
              findTargetInChildren exactAdjustLB exactAdjustEl (cs.take i ++ c :: cs.drop (i + 1))
                0 (cs.take i ++ c :: cs.drop (i + 1)).length off0 := by
            intro off0
            conv_lhs => rw [findTargetNode]
            rw [← hsplit]
          rw [hgen, findTargetInChildren_exact_noText _ _ _ _ _ hnt1, hlen]
          have hoffeq : (prefixSize (Node.element cs b) (i :: rest) : Int) + o =
              (prefixSize c rest : Int) + o := by
            rw [hpre, hts0]; push_cast; ring
          rw [hoffeq]
          simp only [Nat.zero_add, findTargetInChildren, hih]

/-- An exact traversal started at a nonnegative offset within the
subtree's text size either matches a TextNode whose pre-order prefix
plus remaining offset reconstructs the starting offset, or the subtree
has no text at all and the offset was 0. -/
theorem findTarget_exact_within :
    (∀ n, ∀ off : Int, 0 ≤ off → off ≤ (textSize n : Int) →
      (∃ p s r, findTargetNode exactAdjustLB exactAdjustEl n off = (some (p, s), r) ∧
        0 ≤ r ∧ r ≤ (s.length : Int) ∧ nodeAt n p = some (.text s) ∧
        (prefixSize n p : Int) + r = off) ∨
      (findTargetNode exactAdjustLB exactAdjustEl n off = (none, off) ∧ textSize n = 0 ∧ off = 0)) ∧
    (∀ cs, ∀ (i tot : Nat) (off : Int), 0 ≤ off → off ≤ (textSizeList cs : Int) →
      (∃ j c p s r, cs[j]? = some c ∧
        findTargetInChildren exactAdjustLB exactAdjustEl cs i tot off = (some ((i + j) :: p, s), r) ∧
        0 ≤ r ∧ r ≤ (s.length : Int) ∧ nodeAt c p = some (.text s) ∧
        (textSizeList (cs.take j) : Int) + (prefixSize c p : Int) + r = off) ∨
      (findTargetInChildren exactAdjustLB exactAdjustEl cs i tot off = (none, off) ∧
        textSizeList cs = 0 ∧ off = 0)) := by
  have h := node_mutual_induction
    (fun n => ∀ off : Int, 0 ≤ off → off ≤ (textSize n : Int) →
      (∃ p s r, findTargetNode exactAdjustLB exactAdjustEl n off = (some (p, s), r) ∧
        0 ≤ r ∧ r ≤ (s.length : Int) ∧ nodeAt n p = some (.text s) ∧
        (prefixSize n p : Int) + r = off) ∨
      (findTargetNode exactAdjustLB exactAdjustEl n off = (none, off) ∧ textSize n = 0 ∧ off = 0))
    (fun cs => ∀ (i tot : Nat) (off : Int), 0 ≤ off → off ≤ (textSizeList cs : Int) →
      (∃ j c p s r, cs[j]? = some c ∧
        findTargetInChildren exactAdjustLB exactAdjustEl cs i tot off = (some ((i + j) :: p, s), r) ∧
        0 ≤ r ∧ r ≤ (s.length : Int) ∧ nodeAt c p = some (.text s) ∧
        (textSizeList (cs.take j) : Int) + (prefixSize c p : Int) + r = off) ∨
      (findTargetInChildren exactAdjustLB exactAdjustEl cs i tot off = (none, off) ∧
        textSizeList cs = 0 ∧ off = 0))
    (by
      intro s off h0 hle
      left
      refine ⟨[], s, off, ?_, h0, ?_, by simp [nodeAt], by simp [prefixSize]⟩
      · simp only [findTargetNode]
        rw [if_pos (by simpa [textSize] using hle)]
      · simpa [textSize] using hle)
    (by
      intro off h0 hle
      right
      have hoff : off = 0 := by simp [textSize] at hle; omega
      subst hoff
      exact ⟨by simp [findTargetNode, exactAdjustLB], rfl, rfl⟩)
    (by
      intro cs b hcs off h0 hle
      rcases hcs 0 cs.length off h0 (by simpa [textSize] using hle) with
        ⟨j, c, p, s, r, hg, hrun, hr0, hrle, hat, heq⟩ | ⟨hrun, hts, hoff⟩
      · left
        refine ⟨j :: p, s, r, ?_, hr0, hrle, ?_, ?_⟩
        · simp only [findTargetNode]
          simpa using hrun
        · simp [nodeAt, hg, hat]
        · simp only [prefixSize, hg]
          push_cast
          omega
      · right
        refine ⟨by simp only [findTargetNode]; exact hrun, by simpa [textSize] using hts, hoff⟩)
    (by
      intro i tot off h0 hle
      right
      have hoff : off = 0 := by simp [textSizeList] at hle; omega
      subst hoff
      exact ⟨by simp [findTargetInChildren], rfl, rfl⟩)
    (by
      intro c rest hcIH hrestIH i tot off h0 hle
      by_cases hoc : off ≤ (textSize c : Int)
      · rcases hcIH off h0 hoc with
          ⟨p, s, r, hfc, hr0, hrle, hat, heq⟩ | ⟨hfc, hts0, hoff0⟩
        · left
          refine ⟨0, c, p, s, r, by simp, ?_, hr0, hrle, hat, ?_⟩
          · have hstep : findTargetInChildren exactAdjustLB exactAdjustEl (c :: rest) i tot off =
                (some (i :: p, s), r) := by
              simp only [findTargetInChildren, hfc]
            simpa using hstep
          · simp only [List.take_zero, textSizeList]
            push_cast
            omega
        · subst hoff0
          have hstep : findTargetInChildren exactAdjustLB exactAdjustEl (c :: rest) i tot 0 =
              findTargetInChildren exactAdjustLB exactAdjustEl rest (i + 1) tot 0 := by
            simp only [findTargetInChildren, hfc, exactAdjustEl]
          have hlerest : (0 : Int) ≤ (textSizeList rest : Int) := by positivity
          rcases hrestIH (i + 1) tot 0 le_rfl hlerest with
            ⟨j, c0, p, s, r, hg, hrun, hr0, hrle, hat, heq⟩ | ⟨hrun, hts, _⟩
          · left
            refine ⟨j + 1, c0, p, s, r, by simpa using hg, ?_, hr0, hrle, hat, ?_⟩
            · have hidx : (i + 1) + j = i + (j + 1) := by omega
              rw [hstep, hrun, hidx]
            · simp only [List.take_succ_cons, textSizeList, hts0]
              push_cast
              omega
          · right
            refine ⟨by rw [hstep, hrun], ?_, rfl⟩
            simp [textSizeList, hts0, hts]
      · have hover : (textSize c : Int) < off := by omega
        have hfc := findTarget_exact_overshoot c off hover
        have hstep : findTargetInChildren exactAdjustLB exactAdjustEl (c :: rest) i tot off =
            findTargetInChildren exactAdjustLB exactAdjustEl rest (i + 1) tot (off - textSize c) := by
          simp only [findTargetInChildren, hfc, exactAdjustEl]
        have h0' : (0 : Int) ≤ off - textSize c := by omega
        have hle' : off - (textSize c : Int) ≤ (textSizeList rest : Int) := by
          simp only [textSizeList] at hle
          push_cast at hle ⊢
          omega
        rcases hrestIH (i + 1) tot (off - textSize c) h0' hle' with
          ⟨j, c0, p, s, r, hg, hrun, hr0, hrle, hat, heq⟩ | ⟨_, _, hz⟩
        · left
          refine ⟨j + 1, c0, p, s, r, by simpa using hg, ?_, hr0, hrle, hat, ?_⟩
          · have hidx : (i + 1) + j = i + (j + 1) := by omega
            rw [hstep, hrun, hidx]
          · simp only [List.take_succ_cons, textSizeList]
            push_cast
            omega
        · omega)
  exact ⟨h.1, fun cs i tot off => h.2 cs i tot off⟩

/-- Looking up a natural root index through the JS-number lookup is the
plain list lookup. -/
theorem getChildAtIndex_natCast (rc : List Node) (bi : Nat) :
    getChildAtIndex rc (bi : Int) = rc[bi]? := by
  simp [getChildAtIndex]

/-- Evaluation of `$setPointFromPointPath` when the traversal matches. -/
theorem setPoint_eq_of_match (rc : List Node) (pp : PointPath) (lbA : Int → Int)
    (elA : Node → Nat → Nat → Int → Int) (top : Node) (p : List Nat) (s : String) (r : Int)
    (hg : getChildAtIndex rc pp.rootIndex = some top) (hel : isElementNode top = true)
    (hfc : findTargetNode lbA elA top pp.textOffset = (some (p, s), r)) :
    setPointFromPointPath rc pp lbA elA =
      some (.textPoint pp.rootIndex.toNat p (min r (s.length : Int))) := by
  simp only [setPointFromPointPath, hg, hel, if_true, hfc]

/-- Evaluation of `$setPointFromPointPath` when the traversal exhausts
the Block. -/
theorem setPoint_eq_of_nomatch (rc : List Node) (pp : PointPath) (lbA : Int → Int)
    (elA : Node → Nat → Nat → Int → Int) (top : Node) (r : Int)
    (hg : getChildAtIndex rc pp.rootIndex = some top) (hel : isElementNode top = true)
    (hfc : findTargetNode lbA elA top pp.textOffset = (none, r)) :
    setPointFromPointPath rc pp lbA elA = some (.elementPoint pp.rootIndex.toNat 0) := by
  simp only [setPointFromPointPath, hg, hel, if_true, hfc]

/-- Evaluation of `$setPointFromPointPath` when the root index is out of
range. -/
theorem setPoint_eq_none_of_no_top (rc : List Node) (pp : PointPath) (lbA : Int → Int)
    (elA : Node → Nat → Nat → Int → Int) (hg : getChildAtIndex rc pp.rootIndex = none) :
    setPointFromPointPath rc pp lbA elA = none := by
  simp only [setPointFromPointPath, hg]

/-- Evaluation of `$setPointFromPointPath` when the addressed root child
is not an ElementNode. -/
theorem setPoint_eq_none_of_not_element (rc : List Node) (pp : PointPath) (lbA : Int → Int)
    (elA : Node → Nat → Nat → Int → Int) (top : Node)
    (hg : getChildAtIndex rc pp.rootIndex = some top) (hel : isElementNode top = false) :
    setPointFromPointPath rc pp lbA elA = none := by
  simp only [setPointFromPointPath, hg, hel, if_false, Bool.false_eq_true]

/-- The separator condition, spelled out. -/
theorem sepCond_iff (n : Node) (i tot : Nat) :
    sepCond n i tot = true ↔
      (isElementNode n = true ∧ i ≠ tot - 1 ∧ isInlineNode n = false) := by
  simp only [sepCond, Bool.and_eq_true, bne_iff_ne, Bool.not_eq_true']
  tauto

/-! The claims.  Each claim of the specification gets one theorem; where
the code refutes the claim as stated, a closed counterexample theorem
precedes the amended statement. -/

/-- C2, counterexample: for the Block `element [text "ab", text "c"]`
and an element point on the Block itself with child-index offset `k = 1`,
the encoder produces charOffset 1 — the raw child index — while the
spec's initialization (sum of the sizes of the first 1 children) is 2. -/
theorem c2_element_offset_counterexample :
    pointToPath [Node.element [Node.text "ab", Node.text "c"] false] 0 [] 1 =
      some { rootIndex := 0, textOffset := 1 } ∧
    specElementInit [Node.text "ab", Node.text "c"] 1 = 2 ∧ (1 : Int) ≠ 2 := by
  refine ⟨?_, ?_, by decide⟩
  · simp [pointToPath, pathOffset]
  · simp [specElementInit, textSizeList, textSize]
    rfl

/-- C2, amended: `$pointToPath` seeds its running count with the raw
`point.offset`, whatever the point's node is: the encoded charOffset is
always the pre-order prefix size of the node plus the untranslated local
offset.  In particular, for an ElementNode point the child index `k`
itself is used as a character count, with no conversion through the
children's sizes. -/
theorem c2_element_offset_raw (rc : List Node) (bi : Nat) (b : Node) (p : List Nat)
    (m : Node) (off : Int) (hb : rc[bi]? = some b) (hat : nodeAt b p = some m) :
    pointToPath rc bi p off = some { rootIndex := (bi : Int), textOffset := (prefixSize b p : Int) + off } := by
  simp [pointToPath, hb, pathOffset_eq p b m off hat]

/-- C2, witness: the amended statement at the counterexample's input —
the element point with child index 1 encodes to raw offset 1. -/
theorem c2_element_offset_raw_witness :
    pointToPath [Node.element [Node.text "ab", Node.text "c"] false] 0 [] 1 =
      some { rootIndex := 0, textOffset := (prefixSize (Node.element [Node.text "ab", Node.text "c"] false) [] : Int) + 1 } :=
  c2_element_offset_raw [Node.element [Node.text "ab", Node.text "c"] false] 0
    (Node.element [Node.text "ab", Node.text "c"] false) [] (Node.element [Node.text "ab", Node.text "c"] false) 1
    (by simp) (by simp [nodeAt])

/-- C3, counterexample: on the Block `[text "a", linebreak, text "b"]`,
`decode(blockIndex, 2, Exact)` does not fall back to the element
position `(Block, 0)` as claimed: it lands at offset 1 of the `"b"`
TextNode (child path `[2]`), the end of the exact-flattened text. -/
theorem c3_line_break_counterexample :
    decodeExact [Node.element [Node.text "a", Node.linebreak, Node.text "b"] false]
      { rootIndex := 0, textOffset := 2 } = some (.textPoint 0 [2] 1) ∧
    (DecodedPoint.textPoint 0 [2] 1) ≠ (DecodedPoint.elementPoint 0 0) := by
  refine ⟨?_, by decide⟩
  simp [decodeExact, setPointFromPointPath, getChildAtIndex, isElementNode, findTargetNode,
    findTargetInChildren, exactAdjustLB, exactAdjustEl, String.length]

/-- C3, amended: the Block `[text "a", linebreak, text "b"]` renders to
`"a\nb"` (length 3) and exact-flattens to `"ab"` (length 2);
`decode(blockIndex, 2, Rendered)` lands at offset 0 of `"b"`;
`decode(blockIndex, 2, Exact)` lands at offset 1 of `"b"` (the end of
the flattened text, since a TextNode matches when `size ≥ offset`), and
only an offset beyond the flattened size, such as 3, falls back to
`(Block, 0)`. -/
theorem c3_line_break_example :
    renderedText (Node.element [Node.text "a", Node.linebreak, Node.text "b"] false) = "a\nb" ∧
    ("a\nb" : String).length = 3 ∧
    exactText (Node.element [Node.text "a", Node.linebreak, Node.text "b"] false) = "ab" ∧
    ("ab" : String).length = 2 ∧
    decodeRendered [Node.element [Node.text "a", Node.linebreak, Node.text "b"] false]
      { rootIndex := 0, textOffset := 2 } = some (.textPoint 0 [2] 0) ∧
    decodeExact [Node.element [Node.text "a", Node.linebreak, Node.text "b"] false]
      { rootIndex := 0, textOffset := 2 } = some (.textPoint 0 [2] 1) ∧
    decodeExact [Node.element [Node.text "a", Node.linebreak, Node.text "b"] false]
      { rootIndex := 0, textOffset := 3 } = some (.elementPoint 0 0) := by
  refine ⟨?_, rfl, ?_, rfl, ?_, ?_, ?_⟩
  · simp [renderedText, renderedList, sepCond, isElementNode]
  · simp [exactText, exactTextList]
  · simp [decodeRendered, setPointFromPointPath, getChildAtIndex, isElementNode, findTargetNode,
      findTargetInChildren, renderedAdjustLB, renderedAdjustEl, sepCond, String.length]
  · simp [decodeExact, setPointFromPointPath, getChildAtIndex, isElementNode, findTargetNode,
      findTargetInChildren, exactAdjustLB, exactAdjustEl, String.length]
  · simp [decodeExact, setPointFromPointPath, getChildAtIndex, isElementNode, findTargetNode,
      findTargetInChildren, exactAdjustLB, exactAdjustEl, String.length]

/-- C6: the matcher's claimed behavior holds on the spec's own examples
(which use the module's hard-coded sentence), but fails as a statement
about every target substring: on blocks `["xy"]` with target `"x"`, the
code returns `{rootIndex 0, startOffset -1, endOffset 13}` because
`indexOf` and `length` are taken from the constant `SENTENCE`
(`"Roses are red."`), not from the `sentence` parameter — while the
claim requires `{0, 0, 1}`. -/
theorem c6_matcher_eval :
    findFirstSentenceMatch ["Hello. Roses are red. Bye.".toList] SENTENCE.toList =
      some { rootIndex := 0, startOffset := 7, endOffset := 21 } ∧
    findFirstSentenceMatch ["Nothing here.".toList] SENTENCE.toList = none ∧
    findFirstSentenceMatch ["xy".toList] "x".toList =
      some { rootIndex := 0, startOffset := -1, endOffset := 13 } := by
  refine ⟨by decide, by decide, by decide⟩

/-- C7, counterexample: running the encoder's recursion on a detached
chain (one level of previous siblings `[text "abc"]` below a top whose
`getIndexWithinParent()` returns `-1`) yields the PointPath
`{rootIndex := -1, textOffset := 3}` — a Path is returned and nothing
fails, refuting "the encode call fails fatally … no Path is returned". -/
theorem c7_detached_counterexample :
    pointToPathChain [[Node.text "abc"]] (-1) 0 = { rootIndex := -1, textOffset := 3 } := by
  simp [pointToPathChain, textSizeList, textSize]
  rfl

/-- C7, amended: `$pointToPath` never signals for a detached subtree:
`setOffsetFromPreviousSiblings` stops as soon as the parent is the root
or missing, so `top` is always assigned, the
`'Expected top to be defined'` throw is unreachable, and the call
returns `{rootIndex := top.getIndexWithinParent(), textOffset := the
accumulated count}` — with rootIndex `-1` (the tree model's value for a
parentless node) rather than an error in the detached case. -/
theorem c7_detached_total (levels : List (List Node)) (topIndex off : Int) :
    pointToPathChain levels topIndex off =
      { rootIndex := topIndex, textOffset := off + (chainContribution levels : Int) } := by
  induction levels generalizing off with
  | nil => simp [pointToPathChain, chainContribution]
  | cons sibs rest ih =>
    simp only [pointToPathChain, chainContribution, ih]
    congr 1
    push_cast
    ring

/-- C8: the rendered element-boundary adjustment subtracts exactly 2
when and only when the child is a non-inline ElementNode that is not
the last sibling (applied by `findTargetInElementNode` after each
unmatched child); consequently the Block with two non-inline element
children `"ab"` and `"cd"` renders to `"ab\n\ncd"` (length 6) and
`decode(blockIndex, 4, Rendered)` lands at local offset 0 of the `"cd"`
child (path `[1, 0]`). -/
theorem c8_boundary_separator :
    (∀ (n : Node) (i tot : Nat) (t : Int), renderedAdjustEl n i tot t = t - 2 ↔
      (isElementNode n = true ∧ i ≠ tot - 1 ∧ isInlineNode n = false)) ∧
    renderedText (Node.element [Node.element [Node.text "ab"] false,
      Node.element [Node.text "cd"] false] false) = "ab\n\ncd" ∧
    ("ab\n\ncd" : String).length = 6 ∧
    decodeRendered [Node.element [Node.element [Node.text "ab"] false,
      Node.element [Node.text "cd"] false] false] { rootIndex := 0, textOffset := 4 } =
      some (.textPoint 0 [1, 0] 0) := by
  refine ⟨?_, ?_, rfl, ?_⟩
  · intro n i tot t
    rw [← sepCond_iff]
    by_cases h : sepCond n i tot
    · simp [renderedAdjustEl, h]
    · simp only [renderedAdjustEl, if_neg h]
      constructor
      · intro habs
        omega
      · intro habs
        rw [habs] at h
        simp at h
  · simp [renderedText, renderedList, sepCond, isElementNode, isInlineNode]
  · simp [decodeRendered, setPointFromPointPath, getChildAtIndex, isElementNode, isInlineNode,
      findTargetNode, findTargetInChildren, renderedAdjustLB, renderedAdjustEl, sepCond,
      String.length]

/-- C1, counterexample: in the Block `[text "a", text "b"]`, the text
point at offset 0 of `"b"` (path `[1]`) encodes to charOffset 1, but
`decode(1, Exact)` matches the earlier TextNode `"a"` (path `[0]`) at
its end (`size ≥ offset` is checked first on `"a"`), so the decoded
Point references a different TextNode than the original. -/
theorem c1_round_trip_counterexample :
    pointToPath [Node.element [Node.text "a", Node.text "b"] false] 0 [1] 0 =
      some { rootIndex := 0, textOffset := 1 } ∧
    decodeExact [Node.element [Node.text "a", Node.text "b"] false]
      { rootIndex := 0, textOffset := 1 } = some (.textPoint 0 [0] 1) ∧
    ([0] : List Nat) ≠ [1] := by
  refine ⟨?_, ?_, by decide⟩
  · simp [pointToPath, pathOffset, textSizeList, textSize, String.length]
  · simp [decodeExact, setPointFromPointPath, getChildAtIndex, isElementNode, findTargetNode,
      findTargetInChildren, exactAdjustLB, exactAdjustEl, String.length]

/-- C1, amended: for a live text point of an attached Block,
`decode(encode(P), Exact)` reconstructs exactly the same TextNode and
offset, provided the point's offset is at least 1 or no TextNode
precedes the point's node in the Block — when the offset is 0 and a
TextNode precedes, decode stops at the end of an earlier TextNode at
the same flattened position instead. -/
theorem c1_round_trip_exact (rc : List Node) (bi : Nat) (b : Node) (p : List Nat)
    (s : String) (o : Nat) (hb : rc[bi]? = some b) (hel : isElementNode b = true)
    (hat : nodeAt b p = some (.text s)) (ho : o ≤ s.length)
    (hfirst : 1 ≤ o ∨ noTextBefore b p = true) :
    ∃ pp, pointToPath rc bi p (o : Int) = some pp ∧
      decodeExact rc pp = some (.textPoint bi p (o : Int)) := by
  refine ⟨{ rootIndex := (bi : Int), textOffset := (prefixSize b p : Int) + o }, ?_, ?_⟩
  · simp [pointToPath, hb, pathOffset_eq p b _ (o : Int) hat]
  · have hrun := findTarget_exact_at_path s o p b hat ho hfirst
    have hv := setPoint_eq_of_match rc { rootIndex := (bi : Int), textOffset := (prefixSize b p : Int) + o }
      exactAdjustLB exactAdjustEl b p s (o : Int) (by simpa using getChildAtIndex_natCast rc bi ▸ hb)
      hel (by simpa using hrun)
    unfold decodeExact
    rw [hv, min_eq_left (by exact_mod_cast ho : ((o : Nat) : Int) ≤ ((s.length : Nat) : Int))]
    simp

/-- C1, witness: the amended round trip at the Block `[text "ab"]` with
the point at offset 1 of `"ab"`. -/
theorem c1_round_trip_exact_witness :
    ∃ pp, pointToPath [Node.element [Node.text "ab"] false] 0 [0] (1 : Nat) = some pp ∧
      decodeExact [Node.element [Node.text "ab"] false] pp = some (.textPoint 0 [0] (1 : Nat)) :=
  c1_round_trip_exact [Node.element [Node.text "ab"] false] 0
    (Node.element [Node.text "ab"] false) [0] "ab" 1 (by simp) (by simp [isElementNode])
    (by simp [nodeAt]) (by simp [String.length]) (Or.inl le_rfl)

/-- C4, counterexample: decoding `(blockIndex 0, charOffset 0)` under
the Rendered policy in the Block `[linebreak, text "x"]` matches the
`"x"` TextNode with remaining offset `-1` (the line-break adjustment
drove it negative), and `Math.min` does not clamp from below: the
resulting text offset is negative, refuting "never negative". -/
theorem c4_clamp_counterexample :
    decodeRendered [Node.element [Node.linebreak, Node.text "x"] false]
      { rootIndex := 0, textOffset := 0 } = some (.textPoint 0 [1] (-1)) ∧
    (-1 : Int) < 0 := by
  refine ⟨?_, by decide⟩
  simp [decodeRendered, setPointFromPointPath, getChildAtIndex, isElementNode, findTargetNode,
    findTargetInChildren, renderedAdjustLB, renderedAdjustEl, sepCond, String.length]

/-- C4, amended: whenever `$setPointFromPointPath` (under any
adjustment functions) produces a text position, the matched node is a
genuine TextNode of the addressed Block and the offset written through
`Math.min(textOffset, size)` never exceeds that node's size; it may be
negative under the Rendered policy. -/
theorem c4_clamp_upper (rc : List Node) (pp : PointPath) (lbA : Int → Int)
    (elA : Node → Nat → Nat → Int → Int) (bi : Nat) (q : List Nat) (off : Int)
    (h : setPointFromPointPath rc pp lbA elA = some (.textPoint bi q off)) :
    ∃ b s, rc[bi]? = some b ∧ nodeAt b q = some (.text s) ∧ off ≤ (s.length : Int) := by
  rcases hg : getChildAtIndex rc pp.rootIndex with _ | top
  · rw [setPoint_eq_none_of_no_top rc pp lbA elA hg] at h
    simp at h
  · by_cases hel : isElementNode top
    · rcases hfc : findTargetNode lbA elA top pp.textOffset with ⟨tgt, r⟩
      cases tgt with
      | none =>
        rw [setPoint_eq_of_nomatch rc pp lbA elA top r hg hel hfc] at h
        simp at h
      | some t =>
        rcases t with ⟨p, s⟩
        rw [setPoint_eq_of_match rc pp lbA elA top p s r hg hel hfc] at h
        simp only [Option.some.injEq, DecodedPoint.textPoint.injEq] at h
        obtain ⟨hbi, hq, hoff⟩ := h
        obtain ⟨hat, _⟩ := (findTarget_some_valid lbA elA).1 top pp.textOffset p s r hfc
        refine ⟨top, s, ?_, ?_, ?_⟩
        · rw [← hbi]
          unfold getChildAtIndex at hg
          by_cases hneg : pp.rootIndex < 0
          · rw [if_pos hneg] at hg
            simp at hg
          · rw [if_neg hneg] at hg
            exact hg
        · rw [← hq]
          exact hat
        · rw [← hoff]
          exact min_le_right _ _
    · rw [setPoint_eq_none_of_not_element rc pp lbA elA top hg (by simpa using hel)] at h
      simp at h

/-- C4, witness: the amended statement at the exact decode of
charOffset 1 in the Block `[text "ab"]`. -/
theorem c4_clamp_upper_witness :
    ∃ b s, ([Node.element [Node.text "ab"] false] : List Node)[0]? = some b ∧
      nodeAt b [0] = some (.text s) ∧ (1 : Int) ≤ (s.length : Int) :=
  c4_clamp_upper [Node.element [Node.text "ab"] false] { rootIndex := 0, textOffset := 1 }
    exactAdjustLB exactAdjustEl 0 [0] 1
    (by simp [setPointFromPointPath, getChildAtIndex, isElementNode, findTargetNode,
      findTargetInChildren, String.length])

/-- C5, counterexample: in the Block `[text "a"]` under the exact
policy, `decode(1)` is the text position `("a", 1)` but `decode(2)`
overruns and falls back to the element position `(Block, 0)`, which
precedes `("a", 1)` in document order — so `decode(O1)` does not
precede or equal `decode(O2)` although `O1 < O2`. -/
theorem c5_monotonic_counterexample :
    (1 : Int) < 2 ∧
    decodeExact [Node.element [Node.text "a"] false] { rootIndex := 0, textOffset := 1 } =
      some (.textPoint 0 [0] 1) ∧
    decodeExact [Node.element [Node.text "a"] false] { rootIndex := 0, textOffset := 2 } =
      some (.elementPoint 0 0) ∧
    ¬ docLe (.textPoint 0 [0] 1) (.elementPoint 0 0) := by
  refine ⟨by decide, ?_, ?_, ?_⟩
  · simp [decodeExact, setPointFromPointPath, getChildAtIndex, isElementNode, findTargetNode,
      findTargetInChildren, exactAdjustLB, exactAdjustEl, String.length]
  · simp [decodeExact, setPointFromPointPath, getChildAtIndex, isElementNode, findTargetNode,
      findTargetInChildren, exactAdjustLB, exactAdjustEl, String.length]
  · simp [docLe]

/-- C5, amended: within one Block and under one policy of the cost
shape shared by the exact and rendered policies, decoding is monotone
in the charOffset provided the larger offset still decodes to a text
position (or the smaller one already fell back): the fallback
`(Block, 0)` produced by an overrun compares below every interior text
position and is the only violation. -/
theorem c5_monotonic (lbA : Int → Int) (elA : Node → Nat → Nat → Int → Int)
    (lbC : Nat) (elC : Node → Nat → Nat → Nat)
    (hlbA : ∀ t, lbA t = t - lbC) (helA : ∀ n i tot t, elA n i tot t = t - elC n i tot)
    (rc : List Node) (pp1 pp2 : PointPath) (r1 r2 : DecodedPoint)
    (hroot : pp1.rootIndex = pp2.rootIndex) (hlt : pp1.textOffset < pp2.textOffset)
    (h1 : setPointFromPointPath rc pp1 lbA elA = some r1)
    (h2 : setPointFromPointPath rc pp2 lbA elA = some r2)
    (hside : isTextDecoded r2 = true ∨ isTextDecoded r1 = false) :
    docLe r1 r2 := by
  rcases hg : getChildAtIndex rc pp1.rootIndex with _ | top
  · rw [setPoint_eq_none_of_no_top rc pp1 lbA elA hg] at h1
    simp at h1
  · by_cases hel : isElementNode top
    · have hg2 : getChildAtIndex rc pp2.rootIndex = some top := by rw [← hroot]; exact hg
      rcases hfc1 : findTargetNode lbA elA top pp1.textOffset with ⟨tgt1, ra⟩
      cases tgt1 with
      | none =>
        rw [setPoint_eq_of_nomatch rc pp1 lbA elA top ra hg hel hfc1] at h1
        have hr1 : r1 = DecodedPoint.elementPoint pp1.rootIndex.toNat 0 := (Option.some.inj h1).symm
        subst hr1
        simp [docLe]
      | some t1 =>
        rcases t1 with ⟨p1, s1⟩
        rw [setPoint_eq_of_match rc pp1 lbA elA top p1 s1 ra hg hel hfc1] at h1
        have hr1 : r1 = DecodedPoint.textPoint pp1.rootIndex.toNat p1 (min ra (s1.length : Int)) :=
          (Option.some.inj h1).symm
        rcases hfc2 : findTargetNode lbA elA top pp2.textOffset with ⟨tgt2, rb⟩
        cases tgt2 with
        | some t2 =>
          rcases t2 with ⟨p2, s2⟩
          rw [setPoint_eq_of_match rc pp2 lbA elA top p2 s2 rb hg2 hel hfc2] at h2
          have hr2 : r2 = DecodedPoint.textPoint pp2.rootIndex.toNat p2 (min rb (s2.length : Int)) :=
            (Option.some.inj h2).symm
          subst hr1
          subst hr2
          rcases (findTarget_some_order lbA elA lbC elC hlbA helA).1 top pp1.textOffset
              pp2.textOffset p1 s1 ra p2 s2 rb (le_of_lt hlt) hfc1 hfc2 with
            hplt | ⟨hpe, hse, hre⟩
          · exact Or.inl hplt
          · subst hpe
            subst hse
            exact Or.inr ⟨rfl, min_le_min hre le_rfl⟩
        | none =>
          rw [setPoint_eq_of_nomatch rc pp2 lbA elA top rb hg2 hel hfc2] at h2
          have hr2 : r2 = DecodedPoint.elementPoint pp2.rootIndex.toNat 0 := (Option.some.inj h2).symm
          subst hr1
          subst hr2
          rcases hside with hs | hs <;> simp [isTextDecoded] at hs
    · rw [setPoint_eq_none_of_not_element rc pp1 lbA elA top hg (by simpa using hel)] at h1
      simp at h1

/-- C5, witness: the amended monotonicity at the rendered decodes of
offsets 0 and 2 in the Block `[text "a", linebreak, text "b"]`. -/
theorem c5_monotonic_witness :
    docLe (DecodedPoint.textPoint 0 [0] 0) (DecodedPoint.textPoint 0 [2] 0) :=
  c5_monotonic renderedAdjustLB renderedAdjustEl 1 rendElCost
    renderedAdjustLB_cost renderedAdjustEl_cost
    [Node.element [Node.text "a", Node.linebreak, Node.text "b"] false]
    { rootIndex := 0, textOffset := 0 } { rootIndex := 0, textOffset := 2 }
    (DecodedPoint.textPoint 0 [0] 0) (DecodedPoint.textPoint 0 [2] 0)
    rfl (by decide)
    (by simp [setPointFromPointPath, getChildAtIndex, isElementNode, findTargetNode,
      findTargetInChildren, renderedAdjustLB, renderedAdjustEl, sepCond, String.length])
    (by simp [setPointFromPointPath, getChildAtIndex, isElementNode, findTargetNode,
      findTargetInChildren, renderedAdjustLB, renderedAdjustEl, sepCond, String.length])
    (Or.inl rfl)

/-- C9: a charOffset strictly above the Block's total flattened size
under the chosen policy (exact: `textSize`; rendered: the length of the
rendered flattening) makes the traversal exhaust the Block, and decode
returns the defined fallback `(Block, 0)` rather than an error. -/
theorem c9_overrun_fallback (rc : List Node) (bi : Nat) (b : Node) (off : Int)
    (hb : rc[bi]? = some b) (hel : isElementNode b = true) :
    ((textSize b : Int) < off →
      decodeExact rc { rootIndex := (bi : Int), textOffset := off } = some (.elementPoint bi 0)) ∧
    (((renderedText b).length : Int) < off →
      decodeRendered rc { rootIndex := (bi : Int), textOffset := off } = some (.elementPoint bi 0)) := by
  have hg : getChildAtIndex rc ((bi : Int)) = some b := by
    rw [getChildAtIndex_natCast]
    exact hb
  constructor
  · intro hover
    rcases hfc : findTargetNode exactAdjustLB exactAdjustEl b off with ⟨tgt, r⟩
    cases tgt with
    | some t =>
      rcases t with ⟨p, s⟩
      have hle := (findTarget_some_le exactAdjustLB exactAdjustEl 0 (fun _ _ _ => 0)
        exactAdjustLB_cost exactAdjustEl_cost).1 b off p s r hfc
      rw [consumed_exact.1 b] at hle
      omega
    | none =>
      unfold decodeExact
      rw [setPoint_eq_of_nomatch rc { rootIndex := (bi : Int), textOffset := off }
        exactAdjustLB exactAdjustEl b r hg hel hfc]
      simp
  · intro hover
    rcases hfc : findTargetNode renderedAdjustLB renderedAdjustEl b off with ⟨tgt, r⟩
    cases tgt with
    | some t =>
      rcases t with ⟨p, s⟩
      have hle := (findTarget_some_le renderedAdjustLB renderedAdjustEl 1 rendElCost
        renderedAdjustLB_cost renderedAdjustEl_cost).1 b off p s r hfc
      rw [consumed_rendered.1 b] at hle
      omega
    | none =>
      unfold decodeRendered
      rw [setPoint_eq_of_nomatch rc { rootIndex := (bi : Int), textOffset := off }
        renderedAdjustLB renderedAdjustEl b r hg hel hfc]
      simp

/-- C9, witness: offset 5 overruns the Block `[text "a"]` (exact size 1,
rendered size 1) and decodes to the fallback under both policies. -/
theorem c9_overrun_fallback_witness :
    decodeExact [Node.element [Node.text "a"] false] { rootIndex := 0, textOffset := 5 } =
      some (.elementPoint 0 0) ∧
    decodeRendered [Node.element [Node.text "a"] false] { rootIndex := 0, textOffset := 5 } =
      some (.elementPoint 0 0) := by
  have h := c9_overrun_fallback [Node.element [Node.text "a"] false] 0
    (Node.element [Node.text "a"] false) 5 (by simp) rfl
  refine ⟨?_, ?_⟩
  · have h1 := h.1 (by simp [textSize, textSizeList, String.length])
    simpa using h1
  · have h2 := h.2 (by simp [renderedText, renderedList, sepCond, isElementNode, String.length])
    simpa using h2

/-- C10: decoding any Path whose charOffset lies within the Block's
exact-flattened size and re-encoding the resulting Point yields the
original Path back: `encode(decode(path, Exact)) = path`.  The fallback
case only occurs for a Block without text (charOffset 0), whose element
position re-encodes to offset 0 as well. -/
theorem c10_reverse_round_trip (rc : List Node) (bi : Nat) (b : Node) (C : Int)
    (hb : rc[bi]? = some b) (hel : isElementNode b = true) (h0 : 0 ≤ C)
    (hle : C ≤ (textSize b : Int)) :
    ∃ pt, decodeExact rc { rootIndex := (bi : Int), textOffset := C } = some pt ∧
      encodeDecoded rc pt = some { rootIndex := (bi : Int), textOffset := C } := by
  have hg : getChildAtIndex rc ((bi : Int)) = some b := by
    rw [getChildAtIndex_natCast]
    exact hb
  rcases findTarget_exact_within.1 b C h0 hle with
    ⟨p, s, r, hrun, hr0, hrle, hat, heq⟩ | ⟨hrun, hts, hC0⟩
  · refine ⟨.textPoint bi p r, ?_, ?_⟩
    · unfold decodeExact
      rw [setPoint_eq_of_match rc { rootIndex := (bi : Int), textOffset := C }
        exactAdjustLB exactAdjustEl b p s r hg hel hrun, min_eq_left hrle]
      simp
    · unfold encodeDecoded
      simp only [pointToPath, hb, pathOffset_eq p b _ r hat, Option.map_some',
        Option.some.injEq, PointPath.mk.injEq]
      exact ⟨trivial, heq⟩
  · refine ⟨.elementPoint bi 0, ?_, ?_⟩
    · unfold decodeExact
      rw [setPoint_eq_of_nomatch rc { rootIndex := (bi : Int), textOffset := C }
        exactAdjustLB exactAdjustEl b C hg hel hrun]
      simp
    · unfold encodeDecoded
      simp only [pointToPath, hb, pathOffset, Option.map_some', Option.some.injEq,
        PointPath.mk.injEq]
      refine ⟨trivial, ?_⟩
      omega

/-- C10, witness: the reverse round trip at the Block `[text "ab"]`
with charOffset 1. -/
theorem c10_reverse_round_trip_witness :
    ∃ pt, decodeExact [Node.element [Node.text "ab"] false] { rootIndex := 0, textOffset := 1 } =
      some pt ∧
      encodeDecoded [Node.element [Node.text "ab"] false] pt =
        some { rootIndex := 0, textOffset := 1 } :=
  c10_reverse_round_trip [Node.element [Node.text "ab"] false] 0
    (Node.element [Node.text "ab"] false) 1 (by simp) rfl (by decide)
    (by simp [textSize, textSizeList, String.length])

end SentencePlugin
